import Mathlib

/-!
# Formal model of `fiml.py` (python-fiml)

A shallow embedding of the FIML (full information maximum likelihood)
estimator of the mean and covariance of data with missing values.

Vectors are embedded as `List α` and matrices as `List (List α)`, which
faithfully captures the NumPy/Python operations the source uses:
slicing (`take`/`drop`), `zip` with its truncation semantics, elementwise
indexing with out-of-range behaviour made explicit through `getD`, and
`np.tril_indices` as the row-major lower-triangle enumeration.  The codec
(`_pack_params` / `_unpack_params`) is generic in the entry type (the
source works on float arrays; the packing logic never inspects entries),
while the likelihood functions are stated over `ℝ`, with `np.linalg.det`
and `np.linalg.inv` embedded as Mathlib's `Matrix.det` and matrix inverse.
A missing value (`np.nan` in a data cell) is embedded as `none` in
`Option ℝ`, so `~np.isnan(x)` becomes the `Option.isSome` mask.
-/

namespace Fiml

variable {α : Type} [Zero α]

/-- Entry `m[i][j]` of a matrix embedded as a list of rows; out-of-range
reads default to `0`, matching a zero-initialised `np.zeros` background. -/
def matGet (m : List (List α)) (i j : Nat) : α :=
  (m.getD i []).getD j 0

/-- In-place style update `m[i][j] = v` (`List.set` is a no-op out of range;
all writes performed by the source are in range). -/
def matSet (m : List (List α)) (i j : Nat) (v : α) : List (List α) :=
  m.set i ((m.getD i []).set j v)

/-- `np.zeros((dim, dim))`. -/
def zerosMat (dim : Nat) : List (List α) :=
  List.replicate dim (List.replicate dim 0)

/-- `np.tril_indices(dim)`: the pairs `(i, j)` of the lower triangle
(`j ≤ i < dim`), enumerated row-major — for each `i` from `0` to `dim - 1`,
`j` from `0` to `i`, in that nested order. -/
def trilIndices (dim : Nat) : List (Nat × Nat) :=
  (List.range dim).flatMap fun i => (List.range (i + 1)).map fun j => (i, j)

/-- `_pack_params(dim, mean, cov)` from `fiml.py`: allocate
`np.zeros(dim + dim * (dim + 1) / 2)`, write `mean` into `params[:dim]`
(NumPy requires `len(mean) == dim` for this slice assignment), then write
`cov[i, j]` at `params[dim + p]` for the `p`-th lower-triangle pair `(i, j)`;
the loop covers every tail position, so the result is `mean` followed by the
lower-triangle entries of `cov` in enumeration order. -/
def _pack_params (dim : Nat) (mean : List α) (cov : List (List α)) : List α :=
  mean ++ (trilIndices dim).map fun ij => matGet cov ij.1 ij.2

/-- One iteration of the `_unpack_params` loop:
`cov[i, j] = v` followed by `cov[j, i] = v`, for `e = (v, (i, j))`. -/
def covStep (cov : List (List α)) (e : α × Nat × Nat) : List (List α) :=
  matSet (matSet cov e.2.1 e.2.2 e.1) e.2.2 e.2.1 e.1

/-- `_unpack_params(dim, params)` from `fiml.py`: `mean = params[0:dim]`
(Python slicing truncates when `params` is short), and the covariance starts
as `np.zeros((dim, dim))` and is filled by
`for v, i, j in zip(params[dim:], *np.tril_indices(dim))`, Python's `zip`
truncating to the shorter of the two sequences.  No length validation is
performed anywhere. -/
def _unpack_params (dim : Nat) (params : List α) : List α × List (List α) :=
  (params.take dim,
   ((params.drop dim).zip (trilIndices dim)).foldl covStep (zerosMat dim))

/-- Well-formedness of a `dim`×`dim` matrix embedding. -/
def MatWF (dim : Nat) (m : List (List α)) : Prop :=
  m.length = dim ∧ ∀ a, a < dim → (m.getD a []).length = dim

lemma mem_trilIndices {dim : Nat} {p : Nat × Nat} :
    p ∈ trilIndices dim ↔ p.2 ≤ p.1 ∧ p.1 < dim := by
  obtain ⟨i, j⟩ := p
  simp only [trilIndices, List.mem_flatMap, List.mem_map, List.mem_range]
  constructor
  · rintro ⟨a, ha, b, hb, h⟩
    obtain ⟨rfl, rfl⟩ := Prod.mk.injEq .. ▸ h
    omega
  · rintro ⟨hji, hi⟩
    exact ⟨i, hi, j, by omega, rfl⟩

lemma trilIndices_succ (d : Nat) :
    trilIndices (d + 1) =
      trilIndices d ++ (List.range (d + 1)).map fun j => (d, j) := by
  simp [trilIndices, List.range_succ]

lemma trilIndices_length (dim : Nat) :
    (trilIndices dim).length = dim * (dim + 1) / 2 := by
  induction dim with
  | zero => rfl
  | succ d ih =>
    rw [trilIndices_succ]
    simp only [List.length_append, List.length_map, List.length_range, ih]
    have h2 : 2 ∣ d * (d + 1) := (Nat.even_mul_succ_self d).two_dvd
    have hrel : (d + 1) * (d + 1 + 1) = d * (d + 1) + 2 * (d + 1) := by ring
    omega

lemma trilIndices_nodup (dim : Nat) : (trilIndices dim).Nodup := by
  rw [trilIndices, List.nodup_flatMap]
  refine ⟨fun i _ => ?_, ?_⟩
  · refine List.Nodup.map ?_ (List.nodup_range (i + 1))
    intro a b h
    simpa using congrArg Prod.snd h
  · refine (List.nodup_range dim).imp ?_
    intro a b hab
    intro p hpa hpb
    simp only [List.mem_map, List.mem_range] at hpa hpb
    obtain ⟨j, -, rfl⟩ := hpa
    obtain ⟨j', -, h⟩ := hpb
    have hba : b = a := by simpa using congrArg Prod.fst h
    exact hab hba.symm

lemma rep_mem_trilIndices {a b dim : Nat} (ha : a < dim) (hb : b < dim) :
    (max a b, min a b) ∈ trilIndices dim :=
  mem_trilIndices.mpr ⟨min_le_max, by omega⟩

section SetLemmas

variable {β : Type}

lemma getD_set_ne (l : List β) (i a : Nat) (d x : β) (h : a ≠ i) :
    (l.set i x).getD a d = l.getD a d := by
  rw [List.getD_eq_getElem?_getD, List.getD_eq_getElem?_getD,
    List.getElem?_set_ne (Ne.symm h)]

lemma getD_set_self_of_lt (l : List β) (i : Nat) (d x : β) (h : i < l.length) :
    (l.set i x).getD i d = x := by
  rw [List.getD_eq_getElem?_getD, List.getElem?_set_self h]
  rfl

lemma getD_set_self_of_le (l : List β) (i : Nat) (d x : β) (h : l.length ≤ i) :
    (l.set i x).getD i d = d := by
  rw [List.getD_eq_getElem?_getD, List.getElem?_eq_none (by simpa using h)]
  rfl

lemma getD_replicate (n i : Nat) (d x : β) (h : i < n) :
    (List.replicate n x).getD i d = x := by
  rw [List.getD_eq_getElem?_getD, List.getElem?_replicate]
  simp [h]

end SetLemmas

lemma matSet_length (m : List (List α)) (i j : Nat) (v : α) :
    (matSet m i j v).length = m.length := by
  simp [matSet]

lemma rowLen_matSet (m : List (List α)) (i j : Nat) (v : α) (a : Nat) :
    ((matSet m i j v).getD a []).length = (m.getD a []).length := by
  unfold matSet
  by_cases hai : a = i
  · subst hai
    by_cases hi : a < m.length
    · rw [getD_set_self_of_lt _ _ _ _ hi]
      simp
    · rw [getD_set_self_of_le _ _ _ _ (by omega),
        List.getD_eq_default _ _ (by omega)]
  · rw [getD_set_ne _ _ _ _ _ hai]

lemma matGet_matSet_self (m : List (List α)) {i j : Nat} (v : α)
    (hi : i < m.length) (hj : j < (m.getD i []).length) :
    matGet (matSet m i j v) i j = v := by
  unfold matGet matSet
  rw [getD_set_self_of_lt _ _ _ _ hi, getD_set_self_of_lt _ _ _ _ hj]

lemma matGet_matSet_ne (m : List (List α)) {i j a b : Nat} (v : α)
    (h : a ≠ i ∨ b ≠ j) :
    matGet (matSet m i j v) a b = matGet m a b := by
  unfold matGet matSet
  by_cases hai : a = i
  · subst hai
    have hbj : b ≠ j := h.resolve_left (fun h' => h' rfl)
    by_cases hi : a < m.length
    · rw [getD_set_self_of_lt _ _ _ _ hi, getD_set_ne _ _ _ _ _ hbj]
    · rw [getD_set_self_of_le _ _ _ _ (by omega),
        List.getD_eq_default m _ (by omega)]
  · rw [getD_set_ne _ _ _ _ _ hai]

lemma MatWF.matSet {dim : Nat} {m : List (List α)} (h : MatWF dim m)
    (i j : Nat) (v : α) : MatWF dim (Fiml.matSet m i j v) :=
  ⟨by rw [matSet_length, h.1], fun a ha => by rw [rowLen_matSet]; exact h.2 a ha⟩

lemma zerosMat_wf (dim : Nat) : MatWF dim (zerosMat (α := α) dim) := by
  refine ⟨by simp [zerosMat], fun a ha => ?_⟩
  rw [zerosMat, getD_replicate _ _ _ _ ha]
  simp

lemma matGet_zerosMat (dim a b : Nat) : matGet (zerosMat (α := α) dim) a b = 0 := by
  unfold matGet zerosMat
  by_cases ha : a < dim
  · rw [getD_replicate _ _ _ _ ha]
    by_cases hb : b < dim
    · rw [getD_replicate _ _ _ _ hb]
    · rw [List.getD_eq_default _ _ (by simpa using hb)]
  · rw [List.getD_eq_default (List.replicate dim (List.replicate dim 0)) _
      (by simpa using ha)]
    rfl

/-- The entry written at a well-formed in-range position. -/
lemma matGet_matSet_self_wf {dim : Nat} {m : List (List α)} (h : MatWF dim m)
    {i j : Nat} (v : α) (hi : i < dim) (hj : j < dim) :
    matGet (matSet m i j v) i j = v :=
  matGet_matSet_self m v (h.1 ▸ hi) (h.2 i hi ▸ hj)

lemma MatWF.covStep {dim : Nat} {m : List (List α)} (h : MatWF dim m)
    (e : α × Nat × Nat) : MatWF dim (Fiml.covStep m e) :=
  (h.matSet e.2.1 e.2.2 e.1).matSet e.2.2 e.2.1 e.1

lemma MatWF.foldl_covStep {dim : Nat} {m : List (List α)} (h : MatWF dim m)
    (L : List (α × Nat × Nat)) : MatWF dim (L.foldl Fiml.covStep m) := by
  induction L generalizing m with
  | nil => exact h
  | cons e L ih => exact ih (h.covStep e)

/-- A loop iteration for the representative pair of `(a, b)` writes the
entry `(a, b)`. -/
lemma matGet_covStep_rep {dim : Nat} {m : List (List α)} (hwf : MatWF dim m)
    {v : α} {a b i j : Nat} (ha : a < dim) (hb : b < dim)
    (hij : (i, j) = (max a b, min a b)) :
    matGet (covStep m (v, i, j)) a b = v := by
  have hi : i = max a b := congrArg Prod.fst hij
  have hj : j = min a b := congrArg Prod.snd hij
  subst hi hj
  unfold covStep
  rcases Nat.le_total b a with hba | hab
  · rw [Nat.max_eq_left hba, Nat.min_eq_right hba]
    by_cases heq : a = b
    · subst heq
      exact matGet_matSet_self_wf (hwf.matSet a a v) v ha ha
    · have h1 : matGet (matSet (matSet m a b v) b a v) a b
          = matGet (matSet m a b v) a b := matGet_matSet_ne _ v (Or.inl heq)
      rw [h1]
      exact matGet_matSet_self_wf hwf v ha hb
  · rw [Nat.max_eq_right hab, Nat.min_eq_left hab]
    exact matGet_matSet_self_wf (hwf.matSet b a v) v ha hb

/-- A loop iteration for any other lower-triangle pair leaves the entry
`(a, b)` unchanged. -/
lemma matGet_covStep_ne {m : List (List α)} {v : α} {a b i j : Nat}
    (hji : j ≤ i) (hij : (i, j) ≠ (max a b, min a b)) :
    matGet (covStep m (v, i, j)) a b = matGet m a b := by
  have h1 : ¬(a = i ∧ b = j) := by
    rintro ⟨rfl, rfl⟩
    exact hij (by rw [Nat.max_eq_left hji, Nat.min_eq_right hji])
  have h2 : ¬(a = j ∧ b = i) := by
    rintro ⟨rfl, rfl⟩
    exact hij (by rw [Nat.max_eq_right hji, Nat.min_eq_left hji])
  unfold covStep
  rw [matGet_matSet_ne _ _ (by tauto), matGet_matSet_ne _ _ (by tauto)]

/-- Characterisation of the `_unpack_params` population loop: after folding
a list of (value, lower-triangle pair) writes with pairwise distinct pairs,
the entry `(a, b)` holds the value attached to the representative pair
`(max a b, min a b)` if the list contains it, and is untouched otherwise. -/
lemma matGet_foldl_covStep {dim : Nat} (L : List (α × Nat × Nat))
    (m : List (List α)) (hwf : MatWF dim m)
    (hbnd : ∀ e ∈ L, e.2.2 ≤ e.2.1 ∧ e.2.1 < dim)
    (hnd : (L.map Prod.snd).Nodup)
    {a b : Nat} (ha : a < dim) (hb : b < dim) :
    matGet (L.foldl covStep m) a b =
      ((L.find? fun e => e.2 == (max a b, min a b)).map Prod.fst).getD
        (matGet m a b) := by
  induction L generalizing m with
  | nil => simp
  | cons e L ih =>
    obtain ⟨v, i, j⟩ := e
    obtain ⟨hji, hi⟩ := hbnd _ (List.mem_cons_self _ _)
    have hmap : ((v, i, j) :: L).map Prod.snd = (i, j) :: L.map Prod.snd := rfl
    rw [hmap, List.nodup_cons] at hnd
    obtain ⟨hnotin, hndL⟩ := hnd
    have hbndL : ∀ e ∈ L, e.2.2 ≤ e.2.1 ∧ e.2.1 < dim :=
      fun e he => hbnd e (List.mem_cons_of_mem _ he)
    by_cases hrep : (i, j) = (max a b, min a b)
    · rw [List.foldl_cons,
        ih (covStep m (v, i, j)) (hwf.covStep _) hbndL hndL,
        List.find?_cons_of_pos _ (by simpa using hrep)]
      have hnone : (L.find? fun e => e.2 == (max a b, min a b)) = none := by
        rw [List.find?_eq_none]
        intro x hx hbeq
        have hx2 : x.2 = (i, j) := by rw [beq_iff_eq.mp hbeq, ← hrep]
        exact hnotin (hx2 ▸ List.mem_map_of_mem Prod.snd hx)
      rw [hnone]
      simp only [Option.map_some', Option.getD_some, Option.map_none',
        Option.getD_none]
      exact matGet_covStep_rep hwf ha hb hrep
    · rw [List.foldl_cons,
        ih (covStep m (v, i, j)) (hwf.covStep _) hbndL hndL,
        matGet_covStep_ne hji hrep,
        List.find?_cons_of_neg _ (by simpa using hrep)]

section ZipFind

variable {β γ : Type}

lemma map_snd_zip_eq_take (l : List β) (t : List γ) :
    (l.zip t).map Prod.snd = t.take l.length := by
  induction l generalizing t with
  | nil => simp
  | cons x l ih =>
    cases t with
    | nil => simp
    | cons y t => simp [ih]

lemma zip_map_fst_self (f : β → γ) (l : List β) :
    (l.map f).zip l = l.map fun a => (f a, a) := by
  induction l with
  | nil => rfl
  | cons x l ih => simp [ih]

lemma find?_beq_self [BEq γ] [LawfulBEq γ] {a : γ} {l : List γ} (h : a ∈ l) :
    (l.find? fun x => x == a) = some a := by
  induction l with
  | nil => cases h
  | cons b l ih =>
    by_cases hba : b = a
    · subst hba
      exact List.find?_cons_of_pos _ (by simp)
    · rw [List.find?_cons_of_neg _ (by simpa using hba)]
      exact ih ((List.mem_cons.mp h).resolve_left fun h' => hba h'.symm)

lemma find?_zip_nodup [BEq γ] [LawfulBEq γ] {vals : List β} {T : List γ}
    (hnd : T.Nodup) {p : Nat} (hp : p < T.length) (hv : p < vals.length) :
    ((vals.zip T).find? fun e => e.2 == T[p]) = some (vals[p], T[p]) := by
  induction T generalizing vals p with
  | nil => cases hp
  | cons t T ih =>
    cases vals with
    | nil => cases hv
    | cons v vals =>
      rw [List.nodup_cons] at hnd
      cases p with
      | zero => exact List.find?_cons_of_pos _ (by simp)
      | succ p =>
        have hp' : p < T.length := by simpa using hp
        have hv' : p < vals.length := by simpa using hv
        simp only [List.zip_cons_cons, List.getElem_cons_succ]
        rw [List.find?_cons_of_neg _ ?_]
        · exact ih hnd.2 hp' hv'
        · simp only [beq_iff_eq]
          intro hEq
          exact hnd.1 (by rw [hEq]; exact List.getElem_mem hp')

end ZipFind

lemma matGet_out_of_range {dim : Nat} {m : List (List α)} (h : MatWF dim m)
    {a b : Nat} (hab : dim ≤ a ∨ dim ≤ b) : matGet m a b = 0 := by
  unfold matGet
  rcases hab with hda | hdb
  · rw [List.getD_eq_default m _ (by rw [h.1]; omega)]
    rfl
  · by_cases ha : a < dim
    · rw [List.getD_eq_default _ _ (by rw [h.2 a ha]; omega)]
    · rw [List.getD_eq_default m _ (by rw [h.1]; omega)]
      rfl

lemma take_length_zip {β γ : Type} (l : List β) (t : List γ) :
    (l.take t.length).zip t = l.zip t := by
  induction l generalizing t with
  | nil => simp
  | cons x l ih =>
    cases t with
    | nil => rfl
    | cons y t => simp [ih]

/-- Two well-formed `dim`×`dim` matrices with the same entries are equal. -/
lemma matEq_of_matGet {dim : Nat} {m₁ m₂ : List (List α)}
    (h₁ : MatWF dim m₁) (h₂ : MatWF dim m₂)
    (h : ∀ a b, a < dim → b < dim → matGet m₁ a b = matGet m₂ a b) :
    m₁ = m₂ := by
  have hlen : m₁.length = m₂.length := by rw [h₁.1, h₂.1]
  apply List.ext_getElem hlen
  intro a ha₁ ha₂
  have hadim : a < dim := h₁.1 ▸ ha₁
  have hrow₁ : m₁[a] = m₁.getD a [] := (List.getD_eq_getElem m₁ [] ha₁).symm
  have hrow₂ : m₂[a] = m₂.getD a [] := (List.getD_eq_getElem m₂ [] ha₂).symm
  rw [hrow₁, hrow₂]
  apply List.ext_getElem (by rw [h₁.2 a hadim, h₂.2 a hadim])
  intro b hb₁ hb₂
  have hbdim : b < dim := by rw [h₁.2 a hadim] at hb₁; exact hb₁
  have e₁ : (m₁.getD a [])[b] = matGet m₁ a b :=
    (List.getD_eq_getElem _ 0 hb₁).symm
  have e₂ : (m₂.getD a [])[b] = matGet m₂ a b :=
    (List.getD_eq_getElem _ 0 hb₂).symm
  rw [e₁, e₂]
  exact h a b hadim hbdim

/-- The decoded covariance is a well-formed `dim`×`dim` matrix, whatever the
input vector. -/
lemma unpack_cov_wf (dim : Nat) (params : List α) :
    MatWF dim (_unpack_params dim params).2 :=
  MatWF.foldl_covStep (zerosMat_wf dim) _

lemma unpack_zip_bounds (dim : Nat) (params : List α) :
    ∀ e ∈ (params.drop dim).zip (trilIndices dim),
      e.2.2 ≤ e.2.1 ∧ e.2.1 < dim :=
  fun _ he => mem_trilIndices.mp (List.of_mem_zip he).2

lemma unpack_zip_nodup (dim : Nat) (params : List α) :
    (((params.drop dim).zip (trilIndices dim)).map Prod.snd).Nodup := by
  rw [map_snd_zip_eq_take]
  exact (trilIndices_nodup dim).sublist (List.take_sublist _ _)

/-- The decoded covariance is symmetric, for every input vector — the
mirrored pair of writes guarantees it with no validation. -/
lemma unpack_cov_symm (dim : Nat) (params : List α) (i j : Nat) :
    matGet (_unpack_params dim params).2 i j
      = matGet (_unpack_params dim params).2 j i := by
  by_cases hi : i < dim
  · by_cases hj : j < dim
    · show matGet (((params.drop dim).zip (trilIndices dim)).foldl covStep
            (zerosMat dim)) i j
          = matGet (((params.drop dim).zip (trilIndices dim)).foldl covStep
            (zerosMat dim)) j i
      rw [matGet_foldl_covStep _ _ (zerosMat_wf dim) (unpack_zip_bounds dim params)
          (unpack_zip_nodup dim params) hi hj,
        matGet_foldl_covStep _ _ (zerosMat_wf dim) (unpack_zip_bounds dim params)
          (unpack_zip_nodup dim params) hj hi,
        Nat.max_comm j i, Nat.min_comm j i,
        matGet_zerosMat, matGet_zerosMat]
    · rw [matGet_out_of_range (unpack_cov_wf dim params) (Or.inr (by omega)),
        matGet_out_of_range (unpack_cov_wf dim params) (Or.inl (by omega))]
  · rw [matGet_out_of_range (unpack_cov_wf dim params) (Or.inl (by omega)),
      matGet_out_of_range (unpack_cov_wf dim params) (Or.inr (by omega))]

/-- Decoding an encoded symmetric matrix restores every entry. -/
lemma matGet_unpack_pack {dim : Nat} {mean : List α} {cov : List (List α)}
    (hm : mean.length = dim) (hwf : MatWF dim cov)
    (hsym : ∀ i j, i < dim → j < dim → matGet cov i j = matGet cov j i)
    {a b : Nat} (ha : a < dim) (hb : b < dim) :
    matGet (_unpack_params dim (_pack_params dim mean cov)).2 a b
      = matGet cov a b := by
  have hdrop : (_pack_params dim mean cov).drop dim
      = (trilIndices dim).map fun ij => matGet cov ij.1 ij.2 := by
    rw [_pack_params, ← hm, List.drop_left]
  have hL : ((_pack_params dim mean cov).drop dim).zip (trilIndices dim)
      = (trilIndices dim).map fun p => (matGet cov p.1 p.2, p) := by
    rw [hdrop, zip_map_fst_self]
  have hfind : (((trilIndices dim).map fun p => (matGet cov p.1 p.2, p)).find?
      fun e => e.2 == (max a b, min a b))
      = some (matGet cov (max a b) (min a b), (max a b, min a b)) := by
    rw [List.find?_map]
    have hcomp : (trilIndices dim).find?
        ((fun e : α × Nat × Nat => e.2 == (max a b, min a b))
          ∘ fun p => (matGet cov p.1 p.2, p))
        = (trilIndices dim).find? fun p => p == (max a b, min a b) := rfl
    rw [hcomp, find?_beq_self (rep_mem_trilIndices ha hb)]
    rfl
  show matGet ((((_pack_params dim mean cov).drop dim).zip
      (trilIndices dim)).foldl covStep (zerosMat dim)) a b = _
  rw [matGet_foldl_covStep _ _ (zerosMat_wf dim)
      (unpack_zip_bounds dim _) (unpack_zip_nodup dim _) ha hb,
    hL, hfind]
  simp only [Option.map_some', Option.getD_some]
  rcases Nat.le_total b a with hba | hab
  · rw [Nat.max_eq_left hba, Nat.min_eq_right hba]
  · rw [Nat.max_eq_right hab, Nat.min_eq_left hab]
    exact hsym b a hb ha

/-- `_unpack_params` is a left inverse of `_pack_params` on shape-correct
symmetric input. -/
lemma unpack_pack {dim : Nat} {mean : List α} {cov : List (List α)}
    (hm : mean.length = dim) (hwf : MatWF dim cov)
    (hsym : ∀ i j, i < dim → j < dim → matGet cov i j = matGet cov j i) :
    _unpack_params dim (_pack_params dim mean cov) = (mean, cov) := by
  have h1 : (_unpack_params dim (_pack_params dim mean cov)).1 = mean := by
    show (_pack_params dim mean cov).take dim = mean
    rw [_pack_params, ← hm, List.take_left]
  have h2 : (_unpack_params dim (_pack_params dim mean cov)).2 = cov :=
    matEq_of_matGet (unpack_cov_wf dim _) hwf
      fun a b ha hb => matGet_unpack_pack hm hwf hsym ha hb
  exact Prod.ext h1 h2

/-- `_pack_params` is a left inverse of `_unpack_params` on vectors of the
valid length: the lower-triangle enumeration reproduces every free
parameter. -/
lemma pack_unpack {dim : Nat} {params : List α}
    (hlen : params.length = dim + dim * (dim + 1) / 2) :
    _pack_params dim (_unpack_params dim params).1 (_unpack_params dim params).2
      = params := by
  have hT : (trilIndices dim).length = dim * (dim + 1) / 2 :=
    trilIndices_length dim
  have hdroplen : (params.drop dim).length = (trilIndices dim).length := by
    rw [List.length_drop, hT, hlen]
    omega
  have htail : ((trilIndices dim).map fun ij =>
      matGet (_unpack_params dim params).2 ij.1 ij.2) = params.drop dim := by
    apply List.ext_getElem (by simp [hdroplen])
    intro p hp1 hp2
    have hpT : p < (trilIndices dim).length := by simpa using hp1
    have hpv : p < (params.drop dim).length := by rwa [hdroplen]
    rw [List.getElem_map]
    obtain ⟨hji, hi⟩ := mem_trilIndices.mp (List.getElem_mem hpT)
    show matGet (((params.drop dim).zip (trilIndices dim)).foldl covStep
        (zerosMat dim)) (trilIndices dim)[p].1 (trilIndices dim)[p].2 = _
    rw [matGet_foldl_covStep _ _ (zerosMat_wf dim) (unpack_zip_bounds dim _)
        (unpack_zip_nodup dim _) hi (by omega),
      Nat.max_eq_left hji, Nat.min_eq_right hji,
      show (((trilIndices dim)[p].1, (trilIndices dim)[p].2))
          = (trilIndices dim)[p] from rfl,
      find?_zip_nodup (trilIndices_nodup dim) hpT hpv]
    rfl
  show params.take dim ++ ((trilIndices dim).map fun ij =>
      matGet (_unpack_params dim params).2 ij.1 ij.2) = params
  rw [htail]
  exact List.take_append_drop dim params

/-- Entries of the input vector beyond the valid length
`dim + dim * (dim + 1) / 2` never influence `_unpack_params`: Python's `zip`
truncates at the exhausted lower-triangle index list. -/
lemma unpack_take_valid (dim : Nat) (params : List α) :
    _unpack_params dim (params.take (dim + dim * (dim + 1) / 2))
      = _unpack_params dim params := by
  have h1 : (params.take (dim + dim * (dim + 1) / 2)).take dim
      = params.take dim := by
    rw [List.take_take, Nat.min_eq_left (Nat.le_add_right dim _)]
  have h2 : ((params.take (dim + dim * (dim + 1) / 2)).drop dim).zip
        (trilIndices dim)
      = (params.drop dim).zip (trilIndices dim) := by
    rw [List.drop_take]
    have he : dim + dim * (dim + 1) / 2 - dim = (trilIndices dim).length := by
      rw [trilIndices_length]
      omega
    rw [he, take_length_zip]
  unfold _unpack_params
  rw [h1, h2]

lemma pack_length {dim : Nat} {mean : List α} (cov : List (List α))
    (hm : mean.length = dim) :
    (_pack_params dim mean cov).length = dim + dim * (dim + 1) / 2 := by
  rw [_pack_params, List.length_append, List.length_map, trilIndices_length, hm]

instance matWF_decidable (dim : Nat) (m : List (List α)) [DecidableEq α] :
    Decidable (MatWF dim m) :=
  decidable_of_iff
    (m.length = dim ∧ ∀ a, a < dim → (m.getD a []).length = dim) Iff.rfl

/-- C1: for every `dim ≥ 1`, every length-`dim` mean vector and every
well-formed symmetric `dim`×`dim` covariance matrix, decoding the encoding
gives back exactly the same pair:
`_unpack_params dim (_pack_params dim mean cov) = (mean, cov)`. -/
theorem claim_C1_codec_round_trip (dim : Nat) (mean : List α)
    (cov : List (List α)) (hdim : 1 ≤ dim) (hm : mean.length = dim)
    (hwf : MatWF dim cov)
    (hsym : ∀ i, i < dim → ∀ j, j < dim → matGet cov i j = matGet cov j i) :
    _unpack_params dim (_pack_params dim mean cov) = (mean, cov) :=
  unpack_pack hm hwf fun i j hi hj => hsym i hi j hj

/-- Witness for C1 at `dim = 2`, `mean = [1, 2]`,
`cov = [[3, 4], [4, 5]]` over `ℤ`. -/
theorem claim_C1_codec_round_trip_witness :
    (1 ≤ 2 ∧ [(1 : ℤ), 2].length = 2 ∧ MatWF 2 [[(3 : ℤ), 4], [4, 5]] ∧
      (∀ i, i < 2 → ∀ j, j < 2 →
        matGet [[(3 : ℤ), 4], [4, 5]] i j = matGet [[(3 : ℤ), 4], [4, 5]] j i)) ∧
    _unpack_params 2 (_pack_params 2 [(1 : ℤ), 2] [[3, 4], [4, 5]])
      = ([1, 2], [[3, 4], [4, 5]]) :=
  ⟨⟨by decide, by decide, by decide, by decide⟩,
    claim_C1_codec_round_trip 2 _ _ (by decide) (by decide) (by decide)
      (by decide)⟩

/-- C2: the covariance produced by `_unpack_params` is symmetric
(`cov[i][j] = cov[j][i]` for all `i, j`) for every input vector — stated
with no length restriction at all, hence in particular for every vector of
the valid length, with no validation needed. -/
theorem claim_C2_decode_symmetric (dim : Nat) (params : List α) (i j : Nat) :
    matGet (_unpack_params dim params).2 i j
      = matGet (_unpack_params dim params).2 j i :=
  unpack_cov_symm dim params i j

/-- C7: `_pack_params` returns a vector of length exactly
`dim + dim * (dim + 1) / 2`, and that division is exact integer arithmetic
(`dim * (dim + 1)` is always even, so there is no truncation and no
off-by-one for odd `dim`). -/
theorem claim_C7_pack_length (dim : Nat) (mean : List α) (cov : List (List α))
    (hdim : 1 ≤ dim) (hm : mean.length = dim) :
    (_pack_params dim mean cov).length = dim + dim * (dim + 1) / 2 ∧
    2 * (dim * (dim + 1) / 2) = dim * (dim + 1) :=
  ⟨pack_length cov hm,
    Nat.mul_div_cancel' (Even.two_dvd (Nat.even_mul_succ_self dim))⟩

/-- Witness for C7 at the odd dimension `dim = 3`. -/
theorem claim_C7_pack_length_witness :
    (1 ≤ 3 ∧ [(0 : ℤ), 0, 0].length = 3) ∧
    ((_pack_params 3 [(0 : ℤ), 0, 0] []).length = 3 + 3 * (3 + 1) / 2 ∧
      2 * (3 * (3 + 1) / 2) = 3 * (3 + 1)) :=
  ⟨⟨by decide, by decide⟩,
    claim_C7_pack_length 3 _ [] (by decide) (by decide)⟩

/-- C8 counterexample: `_unpack_params` does not fail fast on a
length-mismatched input.  At `dim = 2` the valid length is `5`, yet on the
length-1 vector `[5]` it returns an ordinary result — a silently truncated
mean and an all-zero covariance — rather than any error. -/
theorem claim_C8_counterexample :
    ¬ [(5 : ℤ)].length = 2 + 2 * (2 + 1) / 2 ∧
    _unpack_params 2 [(5 : ℤ)] = ([5], [[0, 0], [0, 0]]) := by
  decide

/-- C8 (amended): `_unpack_params` performs no length validation and never
fails: for every input vector it returns a result, whose mean is the
(possibly truncated) slice `params[0:dim]`, and entries beyond the valid
length `dim + dim * (dim + 1) / 2` are silently ignored. -/
theorem claim_C8_no_validation (dim : Nat) (params : List α) :
    (_unpack_params dim params).1 = params.take dim ∧
    _unpack_params dim params
      = _unpack_params dim (params.take (dim + dim * (dim + 1) / 2)) :=
  ⟨rfl, (unpack_take_valid dim params).symm⟩

/-- C9: the first `dim` entries of the encoded vector equal the mean in
order, and the entry at offset `dim + p` is `cov[i][j]` where `(i, j)` is
the `p`-th pair of the row-major lower-triangle enumeration
(`i` from `0` to `dim - 1`, for each `i`, `j` from `0` to `i`). -/
theorem claim_C9_pack_layout (dim : Nat) (mean : List α) (cov : List (List α))
    (hm : mean.length = dim) (p : Nat) (hp : p < dim * (dim + 1) / 2) :
    (_pack_params dim mean cov).take dim = mean ∧
    (_pack_params dim mean cov).getD (dim + p) 0
      = matGet cov ((trilIndices dim).getD p (0, 0)).1
          ((trilIndices dim).getD p (0, 0)).2 := by
  have hpT : p < (trilIndices dim).length := by
    rw [trilIndices_length]
    exact hp
  constructor
  · rw [_pack_params, ← hm, List.take_left]
  · rw [_pack_params, List.getD_eq_getElem?_getD,
      List.getElem?_append_right (by rw [hm]; omega),
      show dim + p - mean.length = p by rw [hm]; omega,
      List.getElem?_map, List.getElem?_eq_getElem hpT]
    simp only [Option.map_some', Option.getD_some]
    rw [List.getD_eq_getElem _ _ hpT]

/-- Witness for C9 at `dim = 2`, `p = 2` (the pair `(1, 1)`). -/
theorem claim_C9_pack_layout_witness :
    ([(1 : ℤ), 2].length = 2 ∧ 2 < 2 * (2 + 1) / 2) ∧
    ((_pack_params 2 [(1 : ℤ), 2] [[5, 6], [7, 8]]).take 2 = [1, 2] ∧
      (_pack_params 2 [(1 : ℤ), 2] [[5, 6], [7, 8]]).getD (2 + 2) 0
        = matGet [[5, 6], [7, 8]] ((trilIndices 2).getD 2 (0, 0)).1
            ((trilIndices 2).getD 2 (0, 0)).2) :=
  ⟨⟨by decide, by decide⟩,
    claim_C9_pack_layout 2 _ _ (by decide) 2 (by decide)⟩

/-- C10: encoding the decoded pair reproduces any vector of the valid
length exactly — the converse round trip. -/
theorem claim_C10_unpack_round_trip (dim : Nat) (params : List α)
    (hlen : params.length = dim + dim * (dim + 1) / 2) :
    _pack_params dim (_unpack_params dim params).1
      (_unpack_params dim params).2 = params :=
  pack_unpack hlen

/-- Witness for C10 at `dim = 2`, `params = [1, 2, 3, 4, 5]`. -/
theorem claim_C10_unpack_round_trip_witness :
    [(1 : ℤ), 2, 3, 4, 5].length = 2 + 2 * (2 + 1) / 2 ∧
    _pack_params 2 (_unpack_params 2 [(1 : ℤ), 2, 3, 4, 5]).1
      (_unpack_params 2 [(1 : ℤ), 2, 3, 4, 5]).2 = [1, 2, 3, 4, 5] :=
  ⟨by decide, claim_C10_unpack_round_trip 2 _ (by decide)⟩

/-! ## The likelihood evaluator and the estimator driver

`np.linalg.det` and `np.linalg.inv` are the linear-algebra collaborators;
they are embedded as Mathlib's determinant and matrix inverse over
`Matrix (Fin k) (Fin k) ℝ`. -/

/-- View of a list-of-rows matrix as a `k`×`k` Mathlib matrix. -/
def toMatrix (k : Nat) (m : List (List ℝ)) : Matrix (Fin k) (Fin k) ℝ :=
  Matrix.of fun i j => matGet m i.1 j.1

/-- `_pdf_normal(x, mean, cov)` from `fiml.py`:
`xshift = x - mean`, `t1 = (2 * np.pi) ** (-0.5 * len(x))`,
`t2 = np.linalg.det(cov) ** (-0.5)`,
`t3 = -0.5 * xshift.dot(np.linalg.inv(cov)).dot(xshift)`,
returning `t1 * t2 * np.exp(t3)`. -/
noncomputable def _pdf_normal (x mean : List ℝ) (cov : List (List ℝ)) : ℝ :=
  (2 * Real.pi) ^ (-(0.5 : ℝ) * (x.length : ℝ))
    * (toMatrix x.length cov).det ^ (-(0.5 : ℝ))
    * Real.exp (-(0.5 : ℝ) *
        Matrix.dotProduct (fun i : Fin x.length => x.getD i.1 0 - mean.getD i.1 0)
          ((toMatrix x.length cov)⁻¹.mulVec
            fun i : Fin x.length => x.getD i.1 0 - mean.getD i.1 0))

/-- `_log_likelihood(x, mean, cov)` from `fiml.py`:
`np.log(_pdf_normal(x, mean, cov))`. -/
noncomputable def _log_likelihood (x mean : List ℝ) (cov : List (List ℝ)) : ℝ :=
  Real.log (_pdf_normal x mean cov)

/-- The observation mask of one data row: the indices `i` with `x[i]` not
missing — `obs = ~np.isnan(x)` (a missing cell `np.nan` is embedded as
`none`). -/
def obsIndices (x : List (Option ℝ)) : List Nat :=
  (List.range x.length).filter fun i => (x.getD i none).isSome

/-- `x[obs]`: the observed values of a row, in index order. -/
def selectVals (x : List (Option ℝ)) : List ℝ :=
  (obsIndices x).map fun i => (x.getD i none).getD 0

/-- `v[obs]`: a vector filtered by an index list. -/
def selectIdx (v : List ℝ) (idx : List Nat) : List ℝ :=
  idx.map fun i => v.getD i 0

/-- `m[obs][:, obs]`: a matrix filtered on rows and columns by the same
index list, preserving order. -/
def selectMat (m : List (List ℝ)) (idx : List Nat) : List (List ℝ) :=
  idx.map fun i => idx.map fun j => matGet m i j

/-- `_obj_func(params, dim, data)` from `fiml.py`: decode `params`, then for
each row accumulate `_log_likelihood(x[obs], mean[obs], cov[obs][:, obs])`
into `objval` (starting from `0.0`), and return `-objval`. -/
noncomputable def _obj_func (params : List ℝ) (dim : Nat)
    (data : List (List (Option ℝ))) : ℝ :=
  -(data.foldl
    (fun objval x =>
      objval + _log_likelihood (selectVals x)
        (selectIdx (_unpack_params dim params).1 (obsIndices x))
        (selectMat (_unpack_params dim params).2 (obsIndices x)))
    0)

/-- `np.zeros(dim)`. -/
def zerosVec (dim : Nat) : List ℝ :=
  List.replicate dim 0

/-- `np.eye(dim)`. -/
def eye (dim : Nat) : List (List ℝ) :=
  (List.range dim).map fun i => (List.range dim).map fun j =>
    if i = j then 1 else 0

/-- Elementwise scalar multiplication `cov * c` of NumPy. -/
def matScale (m : List (List ℝ)) (c : ℝ) : List (List ℝ) :=
  m.map fun row => row.map fun v => v * c

/-- `fiml(data, bias=False)` from `fiml.py`, with the external optimizer
`sp.optimize.fmin` (a black-box collaborator returning a parameter vector)
passed in as a function, and `size, dim = data.shape` passed explicitly:
build the initial guess from a zero mean and identity covariance, minimise
`_obj_func`, decode the result, and rescale the covariance by
`size / (size - 1.0)` unless `bias` is set. -/
noncomputable def fiml (optimizer : (List ℝ → ℝ) → List ℝ → List ℝ)
    (data : List (List (Option ℝ))) (size dim : Nat) (bias : Bool) :
    List ℝ × List (List ℝ) :=
  let params0 := _pack_params dim (zerosVec dim) (eye dim)
  let result := optimizer (fun params => _obj_func params dim data) params0
  let mc := _unpack_params dim result
  if bias then mc else (mc.1, matScale mc.2 ((size : ℝ) / ((size : ℝ) - 1)))

/-- The objective as §4.3 of the spec words it: decode the candidate
vector, filter each row's values, mean and covariance by the row's
observation mask, sum the per-row marginal log-densities over all rows, and
return the negative of that sum. -/
noncomputable def specObjective (params : List ℝ) (dim : Nat)
    (data : List (List (Option ℝ))) : ℝ :=
  -((data.map fun x =>
      _log_likelihood (selectVals x)
        (selectIdx (_unpack_params dim params).1 (obsIndices x))
        (selectMat (_unpack_params dim params).2 (obsIndices x))).sum)

lemma foldl_add_eq_sum {β : Type} (f : β → ℝ) (l : List β) (a : ℝ) :
    l.foldl (fun acc x => acc + f x) a = a + (l.map f).sum := by
  induction l generalizing a with
  | nil => simp
  | cons x l ih => simp [ih, add_assoc]

/-- C3: the objective function equals the negative of the sum, over all
rows, of the marginal log-density of the row's observed coordinates, with
values, mean and covariance filtered by the row's observation mask (the
covariance on both rows and columns). -/
theorem claim_C3_objective_is_neg_sum (params : List ℝ) (dim : Nat)
    (data : List (List (Option ℝ))) :
    _obj_func params dim data = specObjective params dim data := by
  unfold _obj_func specObjective
  rw [foldl_add_eq_sum, zero_add]

/-- C4: on an observed sub-vector of length `k`, the marginal
log-likelihood is the natural log of the multivariate normal density
`(2π)^(-k/2) · det(cov)^(-1/2) · exp(-1/2 · (x-μ)ᵀ cov⁻¹ (x-μ))`. -/
theorem claim_C4_log_density (x mean : List ℝ) (cov : List (List ℝ))
    (hpos : 0 < _pdf_normal x mean cov) :
    _log_likelihood x mean cov
      = Real.log ((2 * Real.pi) ^ (-(x.length : ℝ) / 2)
          * (toMatrix x.length cov).det ^ (-(1 : ℝ) / 2)
          * Real.exp (-(1 : ℝ) / 2 *
              Matrix.dotProduct
                (fun i : Fin x.length => x.getD i.1 0 - mean.getD i.1 0)
                ((toMatrix x.length cov)⁻¹.mulVec
                  fun i : Fin x.length => x.getD i.1 0 - mean.getD i.1 0))) := by
  unfold _log_likelihood _pdf_normal
  have e1 : -(0.5 : ℝ) * (x.length : ℝ) = -(x.length : ℝ) / 2 := by ring
  have e2 : (-(0.5 : ℝ)) = -(1 : ℝ) / 2 := by norm_num
  rw [e1, e2]

/-- Witness for C4 at `x = [0]`, `mean = [0]`, `cov = [[1]]`, where the
density is `(2π)^(-1/2) > 0`. -/
theorem claim_C4_log_density_witness :
    0 < _pdf_normal [0] [0] [[1]] ∧
    _log_likelihood [0] [0] [[1]]
      = Real.log ((2 * Real.pi) ^ (-(([(0 : ℝ)].length : ℕ) : ℝ) / 2)
          * (toMatrix [(0 : ℝ)].length [[(1 : ℝ)]]).det ^ (-(1 : ℝ) / 2)
          * Real.exp (-(1 : ℝ) / 2 *
              Matrix.dotProduct
                (fun i : Fin [(0 : ℝ)].length =>
                  [(0 : ℝ)].getD i.1 0 - [(0 : ℝ)].getD i.1 0)
                ((toMatrix [(0 : ℝ)].length [[(1 : ℝ)]])⁻¹.mulVec
                  fun i : Fin [(0 : ℝ)].length =>
                    [(0 : ℝ)].getD i.1 0 - [(0 : ℝ)].getD i.1 0))) := by
  have hdet : (toMatrix [(0 : ℝ)].length [[(1 : ℝ)]]).det = 1 := by
    rw [Matrix.det_fin_one]
    rfl
  have hpos : 0 < _pdf_normal [0] [0] [[1]] := by
    unfold _pdf_normal
    rw [hdet, Real.one_rpow]
    have hpi : (0 : ℝ) < 2 * Real.pi := by positivity
    positivity
  exact ⟨hpos, claim_C4_log_density [0] [0] [[1]] hpos⟩

/-- C5: a row with every coordinate missing contributes log-density `0`
(the log of density `1`): the 0×0 determinant is `1`, the empty quadratic
form is `0`, and no failure occurs. -/
theorem claim_C5_empty_marginal (mean : List ℝ) (cov : List (List ℝ)) :
    _log_likelihood [] mean cov = 0 := by
  unfold _log_likelihood _pdf_normal
  simp [Matrix.det_isEmpty, Matrix.dotProduct]

/-- C6: with the optimizer's result held fixed, the covariance returned
with `bias = false` is the covariance returned with `bias = true` rescaled
entrywise by `size / (size - 1)`. -/
theorem claim_C6_bias_scaling (optimizer : (List ℝ → ℝ) → List ℝ → List ℝ)
    (data : List (List (Option ℝ))) (size dim : Nat) (hsize : 1 < size) :
    (fiml optimizer data size dim false).2
      = matScale (fiml optimizer data size dim true).2
          ((size : ℝ) / ((size : ℝ) - 1)) := rfl

/-- Witness for C6 with an identity optimizer, `size = 2`, `dim = 1`. -/
theorem claim_C6_bias_scaling_witness :
    1 < 2 ∧
    (fiml (fun _ p => p) [] 2 1 false).2
      = matScale (fiml (fun _ p => p) [] 2 1 true).2
          (((2 : ℕ) : ℝ) / (((2 : ℕ) : ℝ) - 1)) := by
  exact ⟨by decide, claim_C6_bias_scaling (fun _ p => p) [] 2 1 (by decide)⟩

end Fiml
